import Mathlib

/- Shallow embedding of the span-annotation engine (src/script.js:
`highlightEntities`, `createEntityChart`) and of the extractive summarizer
(`mockSummarizeText` in the assistant script) of the Natural-language-AI
repository. Strings are modeled as `List Char` (the `data` of a Lean
`String`); JS numbers produced by division are modeled as exact rationals
extended with the IEEE special values of division by zero. -/

/-- JS word-character class `\w` = `[A-Za-z0-9_]`, the class underlying the
`\b` assertions of the regex built on src/script.js line 237. -/
def wordChar (c : Char) : Bool := c.isAlpha || c.isDigit || c == '_'

/-- Word-character test on an optional character; `none` stands for a string
edge, which never is a word character. -/
def isWordO : Option Char → Bool
  | none => false
  | some c => wordChar c

/-- JS `\b` word-boundary assertion between two adjacent positions: it holds
iff exactly one of the two neighbouring characters is a word character
(string edges count as non-word). -/
def bdry (a b : Option Char) : Bool := isWordO a != isWordO b

/-- Case-insensitive character comparison, modeling the `i` regex flag
(ASCII case folding, which covers every input of this repository). -/
def ciEq (a b : Char) : Bool := a.toLower == b.toLower

/-- Case-insensitive comparison of two strings of equal length. -/
def ciListEq : List Char → List Char → Bool
  | [], [] => true
  | a :: as, b :: bs => ciEq a b && ciListEq as bs
  | _, _ => false

/-- Case-insensitive match of the literal `pat` against a front of `s`:
returns the matched original characters and the rest of `s`. The literal is
compared character by character because `highlightEntities` escapes every
regex metacharacter of the entity text (src/script.js line 237), so the
pattern denotes exactly the literal string. -/
def ciSplit : List Char → List Char → Option (List Char × List Char)
  | [], s => some ([], s)
  | _ :: _, [] => none
  | p :: ps, c :: cs =>
    if ciEq p c then
      match ciSplit ps cs with
      | some (m, r) => some (c :: m, r)
      | none => none
    else none

/-- One fragment of a replacement pass: untouched text, or a matched
occurrence holding the original matched characters. -/
inductive Piece where
  | plain : List Char → Piece
  | matched : List Char → Piece

/-- Fuel-indexed scanner for one global (`g` flag) pass of the regex
`\b<literal>\b` with the `i` flag, as run by `String.prototype.replace` in
`highlightEntities`: walk the subject left to right; at every word-bounded
case-insensitive occurrence of the literal emit a `matched` fragment and
resume right after it (after the next character for a zero-length match);
emit every other character as a `plain` fragment. `prev` is the character
just before the current position (`none` at the start). The fuel only
forces termination; it is called with fuel at least the subject length,
which every recursive call preserves. -/
def scanAux (pat : List Char) : Nat → Option Char → List Char → List Piece
  | _, prev, [] => if pat.isEmpty && isWordO prev then [Piece.matched []] else []
  | 0, _, c :: cs => [Piece.plain (c :: cs)]
  | fuel + 1, prev, c :: cs =>
    if pat.isEmpty then
      if bdry prev (some c) then
        Piece.matched [] :: Piece.plain [c] :: scanAux pat fuel (some c) cs
      else Piece.plain [c] :: scanAux pat fuel (some c) cs
    else if bdry prev (some c) then
      match ciSplit pat (c :: cs) with
      | some (m, r) =>
        if bdry m.getLast? r.head? then Piece.matched m :: scanAux pat fuel m.getLast? r
        else Piece.plain [c] :: scanAux pat fuel (some c) cs
      | none => Piece.plain [c] :: scanAux pat fuel (some c) cs
    else Piece.plain [c] :: scanAux pat fuel (some c) cs

/-- One full replacement pass over subject `s` for the literal `pat`. -/
def scanPieces (pat s : List Char) : List Piece := scanAux pat s.length none s

/-- An entity as consumed by `highlightEntities` and `createEntityChart`:
`text` is the literal to locate, `label` the category, `description` the
tooltip text (src/script.js lines 236-240). -/
structure Entity where
  text : List Char
  label : List Char
  description : List Char
deriving DecidableEq

/-- A segment of the annotated output: plain passthrough text, or a matched
occurrence (holding the original matched characters) annotated with the
entity whose pass produced it. -/
inductive Seg where
  | plain : List Char → Seg
  | ann : Entity → List Char → Seg

/-- Attach the entity of the current pass to its matched fragments. -/
def toSeg (e : Entity) : Piece → Seg
  | Piece.plain s => Seg.plain s
  | Piece.matched m => Seg.ann e m

/-- The segments produced by one replacement pass of `highlightEntities` for
entity `e` over subject `s`. -/
def segsOne (e : Entity) (s : List Char) : List Seg :=
  (scanPieces e.text s).map (toSeg e)

/-- JS `toLowerCase` on the label, as in the class name of the wrap markup. -/
def lower (s : List Char) : List Char := s.map Char.toLower

def wrapPre1 : List Char := "<span class=\"entity-highlight entity-".data

def wrapPre2 : List Char := "\" title=\"".data

def wrapPre3 : List Char := "\">".data

def wrapPost : List Char := "</span>".data

/-- The opening tag of the markup `highlightEntities` substitutes for a
match of entity `e`. -/
def wrapOpen (e : Entity) : List Char :=
  wrapPre1 ++ lower e.label ++ wrapPre2 ++ e.description ++ wrapPre3

/-- The full substitution for one match (src/script.js lines 238-240):
the opening span tag, then the entity's own `text` (not the matched
characters) as displayed content, then the closing tag. -/
def wrapSpan (e : Entity) : List Char := wrapOpen e ++ e.text ++ wrapPost

/-- Render a segment as it appears in the output HTML string. -/
def renderSeg : Seg → List Char
  | Seg.plain s => s
  | Seg.ann e _ => wrapSpan e

/-- Render a segment list to the output HTML string. -/
def renderSegs : List Seg → List Char
  | [] => []
  | s :: l => renderSeg s ++ renderSegs l

/-- One `replace` call of `highlightEntities`: the subject with every match
substituted by the wrap markup. -/
def applyEntity (e : Entity) (s : List Char) : List Char := renderSegs (segsOne e s)

/-- Exact (case-sensitive) match of `pat` at the front of `s`, the
occurrence notion of JS `String.prototype.lastIndexOf`. -/
def frontMatch : List Char → List Char → Bool
  | [], _ => true
  | _ :: _, [] => false
  | p :: ps, c :: cs => p == c && frontMatch ps cs

/-- JS `text.lastIndexOf(pat)`: the largest start offset of an exact
case-sensitive occurrence of `pat` in `text` (`text.length` for an empty
`pat`), or `-1` when there is none; the sort key of src/script.js line 234. -/
def lastIndexOf (t pat : List Char) : Int :=
  match ((List.range (t.length + 1)).filter (fun i => frontMatch pat (t.drop i))).getLast? with
  | some i => (i : Int)
  | none => -1

/-- Order modeled from the comparator
`(a, b) => text.lastIndexOf(b.text) - text.lastIndexOf(a.text)` of
src/script.js line 234: `a` may precede `b` iff the comparator is `≤ 0`,
that is, iff the key of `b` is at most the key of `a`. -/
def keyLe (t : List Char) (a b : Entity) : Prop :=
  lastIndexOf t b.text ≤ lastIndexOf t a.text

instance (t : List Char) : DecidableRel (keyLe t) := fun a b =>
  inferInstanceAs (Decidable (lastIndexOf t b.text ≤ lastIndexOf t a.text))

instance (t : List Char) : IsTotal Entity (keyLe t) :=
  ⟨fun a b => le_total (lastIndexOf t b.text) (lastIndexOf t a.text)⟩

instance (t : List Char) : IsTrans Entity (keyLe t) :=
  ⟨fun _ _ _ hab hbc => le_trans hbc hab⟩

/-- The entity array after the in-place sort
`entities.sort((a, b) => text.lastIndexOf(b.text) - text.lastIndexOf(a.text))`
(src/script.js lines 233-234): descending by last-occurrence offset in the
original text. JS `Array.prototype.sort` is stable, and a stable sort under
a total preorder is unique, so it is modeled by insertion sort. -/
def sortEntities (t : List Char) (es : List Entity) : List Entity :=
  List.insertionSort (keyLe t) es

/-- src/script.js `highlightEntities` (lines 230-244): sort the entities
(in place, on the caller's array), then run one global case-insensitive
word-bounded replacement pass per entity, each pass scanning the full
string produced by the previous one, markup included. -/
def highlightEntities (t : List Char) (es : List Entity) : List Char :=
  (sortEntities t es).foldl (fun s e => applyEntity e s) t

/-- Segment view of `highlightEntities`: the same fold, carrying the
segments of the most recent pass; rendering them yields exactly the string
state of `highlightEntities`. -/
def resolveSegs (t : List Char) (es : List Entity) : List Seg :=
  (sortEntities t es).foldl (fun l e => segsOne e (renderSegs l)) [Seg.plain t]

/-- The original (matched or passthrough) characters of a segment. -/
def origText : Seg → List Char
  | Seg.plain s => s
  | Seg.ann _ m => m

/-- Concatenation of the original characters of the segments: the text the
pass consumed. -/
def flattenOrig : List Seg → List Char
  | [] => []
  | s :: l => origText s ++ flattenOrig l

/-- The literal text a segment contributes to the displayed output: plain
text itself; for an annotated segment the entity text the code inserts. -/
def dispText : Seg → List Char
  | Seg.plain s => s
  | Seg.ann e _ => e.text

/-- Concatenation of the displayed literal texts of the segments. -/
def concatDisp : List Seg → List Char
  | [] => []
  | s :: l => dispText s ++ concatDisp l

/-- The matched texts of the annotated segments, in order. -/
def annTexts : List Seg → List (List Char)
  | [] => []
  | Seg.plain _ :: l => annTexts l
  | Seg.ann _ m :: l => m :: annTexts l

/-- Number of annotations a segment list carries. -/
def countAnn (l : List Seg) : Nat := (annTexts l).length

/-- The matched texts of a piece list, in order. -/
def matchedTexts : List Piece → List (List Char)
  | [] => []
  | Piece.plain _ :: l => matchedTexts l
  | Piece.matched m :: l => m :: matchedTexts l

/-- Concatenation of the original characters of a piece list. -/
def piecesOrig : List Piece → List Char
  | [] => []
  | Piece.plain s :: l => s ++ piecesOrig l
  | Piece.matched m :: l => m ++ piecesOrig l

/-- Concatenation of the displayed texts of a piece list when every matched
fragment displays the fixed entity text `etext`. -/
def dispPieces (etext : List Char) : List Piece → List Char
  | [] => []
  | Piece.plain s :: l => s ++ dispPieces etext l
  | Piece.matched _ :: l => etext ++ dispPieces etext l

/-- Increment the count of key `k` in an insertion-ordered association
list, modeling `entityCounts[label] = (entityCounts[label] || 0) + 1` over
a JS object (src/script.js lines 247-250). -/
def bump : List (List Char × Nat) → List Char → List (List Char × Nat)
  | [], k => [(k, 1)]
  | (k', v) :: rest, k =>
    if k' == k then (k', v + 1) :: rest else (k', v) :: bump rest k

/-- src/script.js `createEntityChart` (lines 246-251): the category counts
of the supplied entity list — every list element is counted once under its
label, regardless of how many occurrences were annotated. -/
def entityCounts (es : List Entity) : List (List Char × Nat) :=
  es.foldl (fun m e => bump m e.label) []

/-- The count recorded under key `k` (0 when the key is absent). -/
def lookupCount (m : List (List Char × Nat)) (k : List Char) : Nat :=
  match m.find? (fun p => p.1 == k) with
  | some p => p.2
  | none => 0

/-- The number of entities of a list whose label is `k`. -/
def labelCount (es : List Entity) (k : List Char) : Nat :=
  (es.filter (fun e => e.label == k)).length

/-- Auxiliary form of JS `String.prototype.split` with a one-character
separator: the first fragment and the remaining fragments. -/
def splitOnCharP (sep : Char) : List Char → List Char × List (List Char)
  | [] => ([], [])
  | c :: cs =>
    if c == sep then ([], (splitOnCharP sep cs).1 :: (splitOnCharP sep cs).2)
    else (c :: (splitOnCharP sep cs).1, (splitOnCharP sep cs).2)

/-- JS `String.prototype.split` with a one-character separator: the list of
(possibly empty) fragments between occurrences of `sep`. -/
def splitOnChar (sep : Char) (s : List Char) : List (List Char) :=
  (splitOnCharP sep s).1 :: (splitOnCharP sep s).2

/-- True iff the fragment has a non-whitespace character, which is exactly
JS `s.trim().length > 0`, the filter predicate of `mockSummarizeText`. -/
def hasNonWS (s : List Char) : Bool := s.any (fun c => !c.isWhitespace)

/-- The sentence list of `mockSummarizeText` (assistant script line 367):
`text.split('.').filter(s => s.trim().length > 0)`. The kept fragments are
not themselves trimmed. -/
def sentencesOf (t : List Char) : List (List Char) :=
  (splitOnChar '.' t).filter hasNonWS

/-- JS `String.prototype.trim`: drop whitespace from both ends. -/
def trimWS (s : List Char) : List Char :=
  ((s.dropWhile Char.isWhitespace).reverse.dropWhile Char.isWhitespace).reverse

/-- A JS number produced by a division: an exact rational, or one of the
IEEE special values that JS division by zero yields. Binary rounding of
finite JS floats is abstracted away: every claim below concerns which
quantities are divided, not their rounding. -/
inductive JsVal where
  | num : ℚ → JsVal
  | inf : JsVal
  | negInf : JsVal
  | nan : JsVal
deriving DecidableEq

/-- JS division `a / b` of real operands: the finite quotient when
`b ≠ 0`, otherwise `Infinity`, `-Infinity` or `NaN` by the sign of `a`. -/
def jsDiv (a b : ℚ) : JsVal :=
  if b = 0 then
    if 0 < a then JsVal.inf else if a < 0 then JsVal.negInf else JsVal.nan
  else JsVal.num (a / b)

/-- The record returned by `mockSummarizeText` (assistant script lines
371-378). Field names follow the source. -/
structure SummaryResult where
  summary : List Char
  original_length : Nat
  summary_length : Nat
  compression_ratio : JsVal
  sentences_used : Nat
  total_sentences : Nat
deriving DecidableEq

def joinSepStr : List Char := ". ".data

def periodStr : List Char := ".".data

/-- `mockSummarizeText` (assistant script lines 366-379): split on periods,
keep the fragments with a non-whitespace character, join the first
`min(3, n)` of them with `". "` and append a final period; both length
metrics count the fragments of a split on the single space character, and
the compression quotient divides character length by character length. -/
def mockSummarizeText (t : List Char) : SummaryResult :=
  let sentences := sentencesOf t
  let summaryLength := min 3 sentences.length
  let summary := List.intercalate joinSepStr (sentences.take summaryLength) ++ periodStr
  { summary := summary
    original_length := (splitOnChar ' ' t).length
    summary_length := (splitOnChar ' ' summary).length
    compression_ratio := jsDiv (summary.length : ℚ) (t.length : ℚ)
    sentences_used := summaryLength
    total_sentences := sentences.length }

/-- The slice `sentences.slice(0, summaryLength)` whose join forms the
summary: the selected sentences of `mockSummarizeText`. -/
def selectedSentences (t : List Char) : List (List Char) :=
  (sentencesOf t).take (min 3 (sentencesOf t).length)

/-- Modelled from the spec: the whitespace-delimited token count of a
string ("originalLength = original word count (whitespace-delimited token
count)"), that is, the number of maximal runs of non-whitespace
characters; stated only for comparison with the split-on-single-space
count the code uses. `inWord` records whether the previous character was
part of a token. -/
def wsWordCountAux : Bool → List Char → Nat
  | _, [] => 0
  | inWord, c :: cs =>
    if c.isWhitespace then wsWordCountAux false cs
    else if inWord then wsWordCountAux true cs
    else 1 + wsWordCountAux true cs

/-- Modelled from the spec: whitespace-delimited word count of a string. -/
def wsWordCount (t : List Char) : Nat := wsWordCountAux false t

/- Concrete inputs used by the example-level theorems below. -/

def exC1text : List Char := "apple".data

def entC1 : Entity :=
  { text := "Apple".data, label := "ORG".data, description := "A tech company".data }

def exC1wText : List Char := "cat surfing".data

def exC2text : List Char := "Apple Watch".data

def entC2a : Entity :=
  { text := "Apple Watch".data, label := "ORG".data, description := "d1".data }

def entC2b : Entity :=
  { text := "Apple".data, label := "ORG".data, description := "d2".data }

def spaceWatch : List Char := " Watch".data

def exC3text : List Char := "A. B. C. D. E.".data

def fragA : List Char := "A".data

def fragB : List Char := " B".data

def fragC : List Char := " C".data

def fragAdot : List Char := "A.".data

def fragBdot : List Char := "B.".data

def fragCdot : List Char := "C.".data

def exC5text : List Char := "Apple released new Apple Watch.".data

def entC5 : Entity :=
  { text := "Apple".data, label := "ORG".data, description := "A tech company".data }

def orgLab : List Char := "ORG".data

def exC7text : List Char := "cat category catalog".data

def entC7 : Entity :=
  { text := "cat".data, label := "X".data, description := "a word".data }

def restC7 : List Char := " category catalog".data

def exC8text : List Char := "a  b.".data

def exC9text : List Char := "A. B.".data

def exC10text : List Char := "a b".data

def entC10a : Entity :=
  { text := "a".data, label := "L".data, description := "da".data }

def entC10b : Entity :=
  { text := "b".data, label := "L".data, description := "db".data }

/- Helper lemmas. -/

/-- A successful case-insensitive front match splits the subject exactly and
matches the pattern character-for-character up to case. -/
theorem ciSplit_spec :
    ∀ (p s m r : List Char), ciSplit p s = some (m, r) →
      m ++ r = s ∧ ciListEq m p = true
  | [], s, m, r, h => by
    simp only [ciSplit, Option.some.injEq, Prod.mk.injEq] at h
    obtain ⟨hm, hr⟩ := h
    subst hm
    subst hr
    exact ⟨rfl, rfl⟩
  | _ :: _, [], m, r, h => by simp [ciSplit] at h
  | p :: ps, c :: cs, m, r, h => by
    by_cases hc : ciEq p c = true
    · rw [ciSplit, if_pos hc] at h
      cases hm : ciSplit ps cs with
      | none => rw [hm] at h; exact absurd h (by simp)
      | some pr =>
        obtain ⟨m', r'⟩ := pr
        rw [hm] at h
        simp only [Option.some.injEq, Prod.mk.injEq] at h
        obtain ⟨hm1, hr1⟩ := h
        subst hm1
        subst hr1
        obtain ⟨ih1, ih2⟩ := ciSplit_spec ps cs m' r' hm
        refine ⟨by simp [ih1], ?_⟩
        simp only [ciListEq, Bool.and_eq_true]
        refine ⟨?_, ih2⟩
        simp only [ciEq, beq_iff_eq] at hc ⊢
        exact hc.symm
    · rw [ciSplit, if_neg hc] at h
      exact absurd h (by simp)

/-- The fragments of one replacement pass tile the scanned subject exactly:
concatenating their original characters reproduces it. -/
theorem piecesOrig_scanAux (pat : List Char) :
    ∀ (fuel : Nat) (prev : Option Char) (s : List Char),
      piecesOrig (scanAux pat fuel prev s) = s := by
  intro fuel
  induction fuel with
  | zero =>
    intro prev s
    cases s with
    | nil =>
      by_cases hp : (pat.isEmpty && isWordO prev) = true
      · simp [scanAux, hp, piecesOrig]
      · simp [scanAux, hp, piecesOrig]
    | cons c cs => simp [scanAux, piecesOrig]
  | succ fuel ih =>
    intro prev s
    cases s with
    | nil =>
      by_cases hp : (pat.isEmpty && isWordO prev) = true
      · simp [scanAux, hp, piecesOrig]
      · simp [scanAux, hp, piecesOrig]
    | cons c cs =>
      rw [scanAux]
      by_cases hp : pat.isEmpty = true
      · rw [if_pos hp]
        by_cases hb : bdry prev (some c) = true
        · rw [if_pos hb]
          simp [piecesOrig, ih]
        · rw [if_neg hb]
          simp [piecesOrig, ih]
      · rw [if_neg hp]
        by_cases hb : bdry prev (some c) = true
        · rw [if_pos hb]
          cases hm : ciSplit pat (c :: cs) with
          | none => simp [piecesOrig, ih]
          | some pr =>
            obtain ⟨m, r⟩ := pr
            by_cases ha : bdry m.getLast? r.head? = true
            · simp only [ha, if_true, piecesOrig]
              rw [ih]
              exact (ciSplit_spec pat (c :: cs) m r hm).1
            · simp only [ha, if_false, Bool.false_eq_true, piecesOrig]
              simp [piecesOrig, ih]
        · rw [if_neg hb]
          simp [piecesOrig, ih]

/-- Every matched fragment of a pass equals the pattern up to case. -/
theorem matchedTexts_scanAux_ci (pat : List Char) :
    ∀ (fuel : Nat) (prev : Option Char) (s : List Char),
      (matchedTexts (scanAux pat fuel prev s)).all (fun m => ciListEq m pat) = true := by
  intro fuel
  induction fuel with
  | zero =>
    intro prev s
    cases s with
    | nil =>
      by_cases hp : (pat.isEmpty && isWordO prev) = true
      · rw [scanAux, if_pos hp]
        simp only [Bool.and_eq_true] at hp
        have hpe : pat = [] := by simpa [List.isEmpty_iff] using hp.1
        subst hpe
        rfl
      · rw [scanAux, if_neg hp]
        rfl
    | cons c cs => simp [scanAux, matchedTexts]
  | succ fuel ih =>
    intro prev s
    cases s with
    | nil =>
      by_cases hp : (pat.isEmpty && isWordO prev) = true
      · rw [scanAux, if_pos hp]
        simp only [Bool.and_eq_true] at hp
        have hpe : pat = [] := by simpa [List.isEmpty_iff] using hp.1
        subst hpe
        rfl
      · rw [scanAux, if_neg hp]
        rfl
    | cons c cs =>
      rw [scanAux]
      by_cases hp : pat.isEmpty = true
      · have hpe : pat = [] := by simpa [List.isEmpty_iff] using hp
        subst hpe
        rw [if_pos hp]
        by_cases hb : bdry prev (some c) = true
        · rw [if_pos hb]
          simp only [matchedTexts, List.all_cons, Bool.and_eq_true]
          exact ⟨rfl, ih (some c) cs⟩
        · rw [if_neg hb]
          simp only [matchedTexts]
          exact ih (some c) cs
      · rw [if_neg hp]
        by_cases hb : bdry prev (some c) = true
        · rw [if_pos hb]
          cases hm : ciSplit pat (c :: cs) with
          | none => simp [matchedTexts, ih]
          | some pr =>
            obtain ⟨m, r⟩ := pr
            by_cases ha : bdry m.getLast? r.head? = true
            · simp only [ha, if_true, matchedTexts, List.all_cons, Bool.and_eq_true]
              exact ⟨(ciSplit_spec pat (c :: cs) m r hm).2, ih m.getLast? r⟩
            · simp only [ha, if_false, Bool.false_eq_true, matchedTexts]
              simp [matchedTexts, ih]
        · rw [if_neg hb]
          simp [matchedTexts, ih]

/-- When every matched fragment coincides with the inserted entity text,
displaying a piece list is the same as reading its original characters. -/
theorem dispPieces_eq_orig (etext : List Char) :
    ∀ l : List Piece, (matchedTexts l).all (fun m => m == etext) = true →
      dispPieces etext l = piecesOrig l
  | [], _ => rfl
  | Piece.plain s :: l, h => by
    simp only [dispPieces, piecesOrig]
    rw [dispPieces_eq_orig etext l (by simpa [matchedTexts] using h)]
  | Piece.matched m :: l, h => by
    simp only [matchedTexts, List.all_cons, Bool.and_eq_true, beq_iff_eq] at h
    simp only [dispPieces, piecesOrig, h.1]
    rw [dispPieces_eq_orig etext l h.2]

/-- Reading original characters commutes with attaching the entity. -/
theorem flattenOrig_map_toSeg (e : Entity) :
    ∀ l : List Piece, flattenOrig (l.map (toSeg e)) = piecesOrig l
  | [] => rfl
  | Piece.plain s :: l => by
    simp only [List.map, toSeg, flattenOrig, origText, piecesOrig]
    rw [flattenOrig_map_toSeg e l]
  | Piece.matched m :: l => by
    simp only [List.map, toSeg, flattenOrig, origText, piecesOrig]
    rw [flattenOrig_map_toSeg e l]

/-- The annotated texts of a pass are exactly its matched fragments. -/
theorem annTexts_map_toSeg (e : Entity) :
    ∀ l : List Piece, annTexts (l.map (toSeg e)) = matchedTexts l
  | [] => rfl
  | Piece.plain s :: l => by
    simp only [List.map, toSeg, annTexts, matchedTexts]
    exact annTexts_map_toSeg e l
  | Piece.matched m :: l => by
    simp only [List.map, toSeg, annTexts, matchedTexts]
    rw [annTexts_map_toSeg e l]

/-- Displayed text of a pass, read through the segment view. -/
theorem concatDisp_map_toSeg (e : Entity) :
    ∀ l : List Piece, concatDisp (l.map (toSeg e)) = dispPieces e.text l
  | [] => rfl
  | Piece.plain s :: l => by
    simp only [List.map, toSeg, concatDisp, dispText, dispPieces]
    rw [concatDisp_map_toSeg e l]
  | Piece.matched m :: l => by
    simp only [List.map, toSeg, concatDisp, dispText, dispPieces]
    rw [concatDisp_map_toSeg e l]

/-- Coverage and contiguity of one pass at the segment level: the original
texts of the segments of `segsOne e s` concatenate to `s` exactly. -/
theorem flattenOrig_segsOne (e : Entity) (s : List Char) :
    flattenOrig (segsOne e s) = s := by
  rw [segsOne, flattenOrig_map_toSeg, scanPieces, piecesOrig_scanAux]

/-- The annotated texts of one pass all equal the entity text up to case. -/
theorem annTexts_segsOne_ci (e : Entity) (s : List Char) :
    (annTexts (segsOne e s)).all (fun m => ciListEq m e.text) = true := by
  rw [segsOne, annTexts_map_toSeg, scanPieces]
  exact matchedTexts_scanAux_ci e.text s.length none s

/-- When every match is case-identical to the entity text, the displayed
concatenation of one pass reproduces the scanned subject. -/
theorem concatDisp_segsOne (e : Entity) (s : List Char)
    (h : (annTexts (segsOne e s)).all (fun m => m == e.text) = true) :
    concatDisp (segsOne e s) = s := by
  rw [segsOne, annTexts_map_toSeg] at h
  rw [segsOne, concatDisp_map_toSeg, dispPieces_eq_orig e.text _ h, scanPieces,
    piecesOrig_scanAux]

/-- The number of split fragments is the separator count plus one. -/
theorem splitOnCharP_length (sep : Char) :
    ∀ t : List Char, ((splitOnCharP sep t).2).length = t.count sep
  | [] => rfl
  | c :: cs => by
    by_cases hc : (c == sep) = true
    · rw [splitOnCharP, if_pos hc]
      have hce : c = sep := by simpa using hc
      simp [List.count_cons, hce, splitOnCharP_length sep cs]
    · rw [splitOnCharP, if_neg hc]
      have hce : ¬ c = sep := by simpa using hc
      simp [List.count_cons, hce, splitOnCharP_length sep cs]

/-- `splitOnChar` length: separator count plus one. -/
theorem splitOnChar_length (sep : Char) (t : List Char) :
    (splitOnChar sep t).length = t.count sep + 1 := by
  rw [splitOnChar]
  simp [splitOnCharP_length sep t]

/-- No split fragment contains the separator. -/
theorem splitOnChar_no_sep (sep : Char) :
    ∀ t : List Char,
      ((splitOnChar sep t).all (fun s => s.all (fun c => !(c == sep)))) = true := by
  intro t
  induction t with
  | nil => rfl
  | cons c cs ih =>
    by_cases hc : (c == sep) = true
    · rw [splitOnChar] at ih ⊢
      rw [splitOnCharP, if_pos hc]
      simpa using ih
    · rw [splitOnChar] at ih ⊢
      rw [splitOnCharP, if_neg hc]
      simp only [List.all_cons] at ih ⊢
      simp only [Bool.and_eq_true] at ih ⊢
      exact ⟨by simp [hc, ih.1], ih.2⟩

/-- Looking up in a cons association list checks the head key first. -/
theorem lookupCount_cons (k' : List Char) (v : Nat) (rest : List (List Char × Nat))
    (j : List Char) :
    lookupCount ((k', v) :: rest) j =
      if (k' == j) = true then v else lookupCount rest j := by
  cases hc : k' == j
  · simp [lookupCount, List.find?, hc]
  · simp [lookupCount, List.find?, hc]

/-- Bumping key `k` adds one to the count at `k` and changes no other key. -/
theorem lookupCount_bump :
    ∀ (m : List (List Char × Nat)) (k j : List Char),
      lookupCount (bump m k) j =
        lookupCount m j + (if (k == j) = true then 1 else 0)
  | [], k, j => by
    rw [bump, lookupCount_cons]
    cases hc : k == j
    · simp [lookupCount, List.find?]
    · simp [lookupCount, List.find?]
  | (k', v) :: rest, k, j => by
    by_cases hk : (k' == k) = true
    · have hke : k' = k := by simpa using hk
      subst hke
      rw [bump, if_pos hk, lookupCount_cons, lookupCount_cons]
      cases hc : k' == j
      · simp
      · simp
    · have hke : ¬ k' = k := by simpa using hk
      rw [bump, if_neg hk, lookupCount_cons, lookupCount_cons]
      cases hc : k' == j
      · simp only [Bool.false_eq_true, if_false]
        exact lookupCount_bump rest k j
      · have hje : k' = j := by simpa using hc
        have hkj : ¬ (k == j) = true := by
          simp only [beq_iff_eq]
          intro hh
          exact hke (hje.trans hh.symm)
        simp [hkj]

/-- Folding `bump` over an entity list adds the per-label counts. -/
theorem lookupCount_foldl_bump :
    ∀ (es : List Entity) (m : List (List Char × Nat)) (k : List Char),
      lookupCount (es.foldl (fun m e => bump m e.label) m) k =
        lookupCount m k + labelCount es k
  | [], m, k => by simp [labelCount]
  | e :: es, m, k => by
    simp only [List.foldl_cons]
    rw [lookupCount_foldl_bump es (bump m e.label) k, lookupCount_bump]
    cases hl : e.label == k
    · simp [labelCount, List.filter_cons, hl]
    · simp only [labelCount, List.filter_cons, hl, if_true, List.length_cons]
      omega

/-- The category mapping of `createEntityChart` records, for every key, the
number of supplied entities carrying that label — one per list element,
independent of how many annotations the highlighting pass applied. -/
theorem entityCounts_spec (es : List Entity) (k : List Char) :
    lookupCount (entityCounts es) k = labelCount es k := by
  rw [entityCounts, lookupCount_foldl_bump]
  simp [lookupCount, List.find?]

/-- Inserting an entity whose key equals `k` puts it in front of every kept
element of the filter on key `k`: every element it is placed behind has a
strictly larger key. -/
theorem filter_orderedInsert_eq (t : List Char) (k : Int) (x : Entity)
    (hx : (lastIndexOf t x.text == k) = true) :
    ∀ l : List Entity,
      (List.orderedInsert (keyLe t) x l).filter (fun e => lastIndexOf t e.text == k) =
        x :: l.filter (fun e => lastIndexOf t e.text == k)
  | [] => by simp [List.orderedInsert, hx]
  | y :: ys => by
    by_cases hle : keyLe t x y
    · rw [List.orderedInsert, if_pos hle]
      simp [List.filter_cons, hx]
    · rw [List.orderedInsert, if_neg hle]
      have hky : ¬ (lastIndexOf t y.text == k) = true := by
        simp only [beq_iff_eq] at hx ⊢
        intro hh
        exact hle (show keyLe t x y from le_of_eq (hh.trans hx.symm))
      simp only [List.filter_cons, hky, if_false, Bool.false_eq_true]
      rw [filter_orderedInsert_eq t k x hx ys]

/-- Inserting an entity whose key differs from `k` leaves the filter on key
`k` unchanged. -/
theorem filter_orderedInsert_ne (t : List Char) (k : Int) (x : Entity)
    (hx : ¬ (lastIndexOf t x.text == k) = true) :
    ∀ l : List Entity,
      (List.orderedInsert (keyLe t) x l).filter (fun e => lastIndexOf t e.text == k) =
        l.filter (fun e => lastIndexOf t e.text == k)
  | [] => by simp [List.orderedInsert, hx]
  | y :: ys => by
    by_cases hle : keyLe t x y
    · rw [List.orderedInsert, if_pos hle]
      simp [List.filter_cons, hx]
    · rw [List.orderedInsert, if_neg hle]
      simp [List.filter_cons, filter_orderedInsert_ne t k x hx ys]

/-- Stability of the modeled sort: for every key value, the entities of that
key appear in the sorted array exactly in their original input order. -/
theorem filter_insertionSort (t : List Char) (k : Int) :
    ∀ es : List Entity,
      (List.insertionSort (keyLe t) es).filter (fun e => lastIndexOf t e.text == k) =
        es.filter (fun e => lastIndexOf t e.text == k)
  | [] => rfl
  | e :: es => by
    rw [List.insertionSort]
    by_cases he : (lastIndexOf t e.text == k) = true
    · rw [filter_orderedInsert_eq t k e he, filter_insertionSort t k es]
      simp [List.filter_cons, he]
    · rw [filter_orderedInsert_ne t k e he, filter_insertionSort t k es]
      simp [List.filter_cons, he]

/-- Rendering commutes with the segment-level fold of the passes. -/
theorem renderSegs_foldl :
    ∀ (l : List Entity) (acc : List Seg),
      renderSegs (l.foldl (fun a e => segsOne e (renderSegs a)) acc) =
        l.foldl (fun s e => applyEntity e s) (renderSegs acc)
  | [], _ => rfl
  | e :: l, acc => by
    simp only [List.foldl_cons]
    rw [renderSegs_foldl l (segsOne e (renderSegs acc))]
    rfl

/-- The segment view renders to exactly the string `highlightEntities`
returns. -/
theorem renderSegs_resolveSegs (t : List Char) (es : List Entity) :
    renderSegs (resolveSegs t es) = highlightEntities t es := by
  rw [resolveSegs, highlightEntities, renderSegs_foldl]
  simp [renderSegs, renderSeg]

/- Claim theorems. -/

/-- C1 counterexample: resolving the text "apple" with the single span
"Apple" (matching is case-insensitive) produces one annotated segment whose
literal text is the span's text "Apple", so the in-order concatenation of
the segment texts is "Apple", not the original "apple": reconstruction is
not byte-for-byte. -/
theorem C1_counterexample :
    concatDisp (resolveSegs exC1text [entC1]) = entC1.text ∧
      concatDisp (resolveSegs exC1text [entC1]) ≠ exC1text :=
  ⟨by decide, by decide⟩

/-- C1 amended: every replacement pass tiles the text it scans — the
original matched characters of its segments concatenate to that text — and
for a single-span resolve, whose segments are exactly the one pass over the
original text, the displayed segment texts concatenate to the original text
exactly whenever every match is case-identical to the span's literal text. -/
theorem C1_reconstruction :
    ∀ (e : Entity) (t : List Char),
      flattenOrig (segsOne e t) = t ∧
      resolveSegs t [e] = segsOne e t ∧
      ((annTexts (segsOne e t)).all (fun m => m == e.text) = true →
        concatDisp (resolveSegs t [e]) = t) := by
  intro e t
  have hres : resolveSegs t [e] = segsOne e t := by
    rw [resolveSegs]
    show segsOne e (renderSegs [Seg.plain t]) = segsOne e t
    rw [renderSegs, renderSegs, renderSeg, List.append_nil]
  refine ⟨flattenOrig_segsOne e t, hres, ?_⟩
  intro h
  rw [hres]
  exact concatDisp_segsOne e t h

/-- C1 witness: for the span "cat" over "cat surfing" every match is
case-identical, and the resolved segment texts concatenate back to the
original text. -/
theorem C1_witness :
    (annTexts (segsOne entC7 exC1wText)).all (fun m => m == entC7.text) = true ∧
      concatDisp (resolveSegs exC1wText [entC7]) = exC1wText :=
  ⟨by decide, (C1_reconstruction entC7 exC1wText).2.2 (by decide)⟩

/-- C2 counterexample: with text "Apple Watch" and the spans "Apple Watch"
then "Apple", the first pass annotates the whole text and the only
occurrence of "Apple" lies inside that annotated range; the claim demands
that span be silently dropped, yet the second pass still applies an
annotation — inside the markup already produced — so the characters of
"Apple" are wrapped twice (the output is a nested span). -/
theorem C2_counterexample :
    ¬ countAnn (resolveSegs exC2text [entC2a, entC2b]) = 0 ∧
      highlightEntities exC2text [entC2a, entC2b] =
        wrapOpen entC2a ++ wrapSpan entC2b ++ spaceWatch ++ wrapPost :=
  ⟨by decide, by decide⟩

/-- C2 amended: within each single replacement pass the resolved segments
are contiguous and disjoint, tiling the scanned string exactly; but later
passes rescan the markup of earlier passes, so a span whose only occurrence
lies inside an already-annotated range can be wrapped again (nested) rather
than silently dropped. -/
theorem C2_pass_tiling (e : Entity) (s : List Char) :
    flattenOrig (segsOne e s) = s :=
  flattenOrig_segsOne e s

/-- C3 counterexample: the selected sentences for "A. B. C. D. E." are the
untrimmed, period-free split fragments "A", " B", " C" — not "A.", "B.",
"C." as the claim states. -/
theorem C3_counterexample :
    selectedSentences exC3text = [fragA, fragB, fragC] ∧
      selectedSentences exC3text ≠ [fragAdot, fragBdot, fragCdot] :=
  ⟨by decide, by decide⟩

/-- C3 amended: in the default (and only) mode the summarizer selects
exactly the first min(3, totalSentences) sentence fragments in original
order — the ratio is never consulted; it is not even an input of
`mockSummarizeText` — with `sentences_used` equal to the selection length
and at most `total_sentences`; on "A. B. C. D. E." it uses 3 of 5
sentences, selecting the fragments "A", " B", " C" in original order. -/
theorem C3_default_selection :
    ∀ t : List Char,
      selectedSentences t = (sentencesOf t).take 3 ∧
      List.Sublist (selectedSentences t) (sentencesOf t) ∧
      (mockSummarizeText t).sentences_used = (selectedSentences t).length ∧
      (mockSummarizeText t).sentences_used ≤ (mockSummarizeText t).total_sentences ∧
      (mockSummarizeText exC3text).sentences_used = 3 ∧
      (mockSummarizeText exC3text).total_sentences = 5 ∧
      selectedSentences exC3text = [fragA, fragB, fragC] := by
  intro t
  have htake : selectedSentences t = (sentencesOf t).take 3 := by
    rw [selectedSentences]
    conv_rhs => rw [← List.take_length (sentencesOf t)]
    rw [List.take_take]
  refine ⟨htake, ?_, ?_, ?_, by decide, by decide, by decide⟩
  · rw [htake]
    exact List.take_sublist 3 (sentencesOf t)
  · show min 3 (sentencesOf t).length = (selectedSentences t).length
    rw [selectedSentences, List.length_take]
    omega
  · show min 3 (sentencesOf t).length ≤ (sentencesOf t).length
    exact Nat.min_le_right 3 _

/-- C4: evaluation of the summarizer at the failing input. On the empty
text the code still appends a period (summary "."), so it computes the JS
division 1 / 0, which yields Infinity, not the 0 the specification
requires; the sentence counts and the empty selection do agree with the
claim, and no error is raised (the modeled function is total). -/
theorem C4_empty_input :
    SummaryResult.compression_ratio (mockSummarizeText []) = JsVal.inf ∧
      (mockSummarizeText []).total_sentences = 0 ∧
      (mockSummarizeText []).sentences_used = 0 ∧
      selectedSentences [] = [] ∧
      (mockSummarizeText []).summary = periodStr ∧
      JsVal.inf ≠ JsVal.num 0 :=
  ⟨by decide, by decide, by decide, by decide, by decide, by decide⟩

/-- C5 counterexample: `createEntityChart` counts the entities of the
supplied list, one each, not the annotations applied: on
"Apple released new Apple Watch." with the single span "Apple" the
highlighting pass applies two annotations, yet the emitted category counts
map ORG to 1, not to the claimed 2. -/
theorem C5_counterexample :
    countAnn (resolveSegs exC5text [entC5]) = 2 ∧
      entityCounts [entC5] = [(orgLab, 1)] ∧
      entityCounts [entC5] ≠ [(orgLab, 2)] :=
  ⟨by decide, by decide, by decide⟩

/-- C5 amended: the emitted mapping assigns to every category the number of
supplied spans carrying that label, independent of how many occurrences
were annotated; on the example the text receives two annotations while the
mapping records 1 under ORG. -/
theorem C5_category_counts :
    (∀ (es : List Entity) (k : List Char),
        lookupCount (entityCounts es) k = labelCount es k) ∧
      countAnn (resolveSegs exC5text [entC5]) = 2 ∧
      lookupCount (entityCounts [entC5]) orgLab = 1 :=
  ⟨entityCounts_spec, by decide, by decide⟩

/-- C6: `highlightEntities` first sorts the spans — stably, on the caller's
array — in descending order of the last (case-sensitive) occurrence offset
of each span's literal text in the original string, ties keeping the
original input order, and only then folds the replacement passes over the
sorted list. -/
theorem C6_processing_order (t : List Char) (es : List Entity) :
    highlightEntities t es =
        (sortEntities t es).foldl (fun s e => applyEntity e s) t ∧
      List.Perm (sortEntities t es) es ∧
      List.Sorted (keyLe t) (sortEntities t es) ∧
      ∀ k : Int,
        (sortEntities t es).filter (fun e => lastIndexOf t e.text == k) =
          es.filter (fun e => lastIndexOf t e.text == k) :=
  ⟨rfl, List.perm_insertionSort _ _, List.sorted_insertionSort _ _,
    fun k => filter_insertionSort t k es⟩

/-- C7: matching is case-insensitive, whole-word and literal: every matched
fragment equals the span text up to case (in general), and on
"cat category catalog" the span "cat" yields exactly one annotation, on the
standalone word — the output is the wrapped "cat" followed by the untouched
rest, with "category" and "catalog" unmatched. -/
theorem C7_word_boundary_matching :
    (∀ (e : Entity) (t : List Char),
        (annTexts (segsOne e t)).all (fun m => ciListEq m e.text) = true) ∧
      countAnn (resolveSegs exC7text [entC7]) = 1 ∧
      annTexts (resolveSegs exC7text [entC7]) = [entC7.text] ∧
      renderSegs (resolveSegs exC7text [entC7]) = wrapSpan entC7 ++ restC7 :=
  ⟨annTexts_segsOne_ci, by decide, by decide, by decide⟩

/-- C8 counterexample: on "a  b." (two spaces) the code's originalLength is
3 — the number of fragments of a split on the single space character —
while the whitespace-delimited word count the claim specifies is 2. -/
theorem C8_counterexample :
    (mockSummarizeText exC8text).original_length = 3 ∧
      wsWordCount exC8text = 2 ∧
      (mockSummarizeText exC8text).original_length ≠ wsWordCount exC8text :=
  ⟨by decide, by decide, by decide⟩

/-- C8 amended: for non-empty text, originalLength and summaryLength are
the single-space-split fragment counts — one more than the number of space
characters — and the compression value is the exact character-length
quotient of summary length by text length. -/
theorem C8_metrics (t : List Char) (h : t ≠ []) :
    (mockSummarizeText t).original_length = t.count ' ' + 1 ∧
      (mockSummarizeText t).summary_length =
        ((mockSummarizeText t).summary).count ' ' + 1 ∧
      SummaryResult.compression_ratio (mockSummarizeText t) =
        JsVal.num ((((mockSummarizeText t).summary).length : ℚ) / (t.length : ℚ)) := by
  refine ⟨splitOnChar_length ' ' t, splitOnChar_length ' ' _, ?_⟩
  have h0 : t.length ≠ 0 := by simpa [List.length_eq_zero] using h
  have hz : ¬ ((t.length : ℚ) = 0) := by
    simpa using h0
  show jsDiv _ _ = _
  rw [jsDiv, if_neg hz]
  rfl

/-- C8 witness: the amended metric equations evaluated on "a  b.". -/
theorem C8_witness :
    exC8text ≠ [] ∧
      ((mockSummarizeText exC8text).original_length = exC8text.count ' ' + 1 ∧
        (mockSummarizeText exC8text).summary_length =
          ((mockSummarizeText exC8text).summary).count ' ' + 1 ∧
        SummaryResult.compression_ratio (mockSummarizeText exC8text) =
          JsVal.num ((((mockSummarizeText exC8text).summary).length : ℚ) /
            (exC8text.length : ℚ))) :=
  ⟨by decide, C8_metrics exC8text (by decide)⟩

/-- C9 counterexample: the sentence list of "A. B." is the pair of
fragments "A" and " B": the kept fragment " B" is not trimmed,
contradicting the claimed trimming of each resulting sentence. -/
theorem C9_counterexample :
    sentencesOf exC9text = [fragA, fragB] ∧
      ¬ ((sentencesOf exC9text).all (fun s => trimWS s == s)) = true :=
  ⟨by decide, by decide⟩

/-- C9 amended: segmentation splits on the period as sole delimiter (no
fragment contains a period), discards exactly the fragments without any
non-whitespace character, and preserves original order (the sentence list
is a sublist of the split), but the retained fragments keep their
whitespace untrimmed, as the example shows. -/
theorem C9_segmentation :
    ∀ t : List Char,
      List.Sublist (sentencesOf t) (splitOnChar '.' t) ∧
      (sentencesOf t).all hasNonWS = true ∧
      ((splitOnChar '.' t).all (fun s => s.all (fun c => !(c == '.')))) = true ∧
      sentencesOf exC9text = [fragA, fragB] := by
  intro t
  refine ⟨List.filter_sublist _, ?_, splitOnChar_no_sep '.' t, by decide⟩
  rw [sentencesOf]
  simp only [List.all_eq_true]
  intro s hs
  exact List.of_mem_filter hs

/-- C10 counterexample: `highlightEntities` sorts the caller's span array
in place; with text "a b" and the spans for "a" and "b" supplied in that
order, the array afterwards holds them reversed (the key of "b" is
larger), so the caller's list is not left unmodified. -/
theorem C10_counterexample :
    sortEntities exC10text [entC10a, entC10b] = [entC10b, entC10a] ∧
      sortEntities exC10text [entC10a, entC10b] ≠ [entC10a, entC10b] :=
  ⟨by decide, by decide⟩

/-- C10 amended: apart from reordering the caller's array in place, the
resolver computes a pure function of its inputs; the array after the call
is a permutation of the supplied spans (same elements, possibly in a
different order). -/
theorem C10_array_permutation (t : List Char) (es : List Entity) :
    List.Perm (sortEntities t es) es :=
  List.perm_insertionSort _ _
